import Mathlib

/-
Verification of the node-normalization and tree-repair logic of
`mathjax3-ts/input/tex/TreeHelper.ts`.

The MmlNode tree API (node fields, factory, arity table, slot indices,
operator dictionary) is not part of this file's source module; those
parts are modelled from the specification, as marked in the doc comments.
Everything else is translated directly from the TreeHelper source.
-/

namespace TreeHelper

/-- A property or attribute value (the dynamic `Property` type of the source:
strings, numbers and booleans). -/
inductive PropVal : Type where
  | str : String → PropVal
  | num : Int → PropVal
  | bool : Bool → PropVal
deriving DecidableEq, Repr

/-- A `PropertyList`: an ordered string-keyed map, iterated in insertion order
like the keys of a JavaScript object. -/
abbrev PropertyList := List (String × PropVal)

/-- Overwrite-or-append update of a string-keyed association list: the model of
`map.set(key, value)` on a JavaScript-object-backed map. -/
def setKV : PropertyList → String → PropVal → PropertyList
  | [], k, v => [(k, v)]
  | (k', v') :: rest, k, v =>
    if k' = k then (k, v) :: rest else (k', v') :: setKV rest k v

/-- Lookup in a string-keyed association list: the model of `map.get(key)`. -/
def getKV : PropertyList → String → Option PropVal
  | [], _ => none
  | (k', v') :: rest, k => if k' = k then some v' else getKV rest k

/-- Modelled from the spec: a Tree Node of the presentation-markup tree.
It has a `kind` tag, an ordered sequence of child slots (slots may be
absent, hence `Option`), a generic string-keyed attribute map, a typed
property map, an optional `texClass` classification, the `isInferred`
flag marking synthetic grouping nodes, and, for operator nodes, the
literal text payload and the externally supplied ordered candidate-form
list.  The parent back-reference of the source is implicit in the
functional tree representation. -/
inductive MNode : Type where
  | mk : String → List (Option MNode) → PropertyList → PropertyList →
         Option PropVal → Bool → String → List String → MNode

def MNode.kind : MNode → String
  | .mk k _ _ _ _ _ _ _ => k

def MNode.childNodes : MNode → List (Option MNode)
  | .mk _ cs _ _ _ _ _ _ => cs

def MNode.attributes : MNode → PropertyList
  | .mk _ _ a _ _ _ _ _ => a

def MNode.properties : MNode → PropertyList
  | .mk _ _ _ p _ _ _ _ => p

def MNode.texClass : MNode → Option PropVal
  | .mk _ _ _ _ t _ _ _ => t

def MNode.isInferred : MNode → Bool
  | .mk _ _ _ _ _ i _ _ => i

def MNode.text : MNode → String
  | .mk _ _ _ _ _ _ tx _ => tx

def MNode.forms : MNode → List String
  | .mk _ _ _ _ _ _ _ f => f

def MNode.withChildren : MNode → List (Option MNode) → MNode
  | .mk k _ a p t i tx f, cs => .mk k cs a p t i tx f

def MNode.withAttributes : MNode → PropertyList → MNode
  | .mk k cs _ p t i tx f, a => .mk k cs a p t i tx f

def MNode.withTexClass : MNode → Option PropVal → MNode
  | .mk k cs a p _ i tx f, t => .mk k cs a p t i tx f

/-- The model of `node.setProperty(name, value)`. -/
def MNode.setProp : MNode → String → PropVal → MNode
  | .mk k cs a p t i tx f, name, v => .mk k cs a (setKV p name v) t i tx f

/-- The model of `node.attributes.set(name, value)`. -/
def MNode.setAttr : MNode → String → PropVal → MNode
  | .mk k cs a p t i tx f, name, v => .mk k cs (setKV a name v) p t i tx f

/-- The allow-list `attrs` of typed-property names from the source. -/
def attrs : List String :=
  ["autoOP", "fnOP", "movesupsub", "subsupOK", "texprimestyle",
   "useHeight", "variantForm", "withDelims", "open", "close"]

/-- One iteration of the key loop of `setProperties` (source lines 148-164):
`texClass` is stored in the typed `texClass` field, `movablelimits` is stored
as a typed property and mirrored into the attribute map for `mo`/`mstyle`
nodes, `inferred` is dropped, allow-listed keys become typed properties, and
everything else becomes a generic attribute. -/
def setPropertiesStep (node : MNode) (kv : String × PropVal) : MNode :=
  if kv.1 = "texClass" then node.withTexClass (some kv.2)
  else if kv.1 = "movablelimits" then
    let node' := node.setProp ("movablelimits") kv.2
    if node'.kind = "mo" ∨ node'.kind = "mstyle" then
      node'.setAttr ("movablelimits") kv.2
    else node'
  else if kv.1 = "inferred" then node
  else if kv.1 ∈ attrs then node.setProp kv.1 kv.2
  else node.setAttr kv.1 kv.2

/-- `setProperties(node, properties)` of the source: classify and apply every
entry of the metadata bag in iteration order. -/
def setProperties (node : MNode) (properties : PropertyList) : MNode :=
  properties.foldl setPropertiesStep node

/-- `copyAttributes(oldNode, newNode)` of the source: assign the old node's
attribute map to the new node (the source aliases the map; in the functional
model this is a copy), then apply `setProperties` with all of the old node's
typed properties. -/
def copyAttributes (oldNode newNode : MNode) : MNode :=
  setProperties (newNode.withAttributes oldNode.attributes) oldNode.properties

/-- Modelled from the spec: the external Node Factory `factory.create`.
It constructs a typed node of the given kind with the given children, an
empty attribute map, no typed properties, no texClass, and not inferred
(the factory of the source is never asked for an inferred node). -/
def factoryCreate (kind : String) (children : List (Option MNode)) : MNode :=
  .mk kind children [] [] none false "" []

/-- Modelled from the spec: the arity declared by each node kind.  A fixed
arity is a count; the variadic case (the source's `Infinity` as well as its
`-1` sentinel) is represented by `-1`. -/
def arity (kind : String) : Int :=
  if kind = "mrow" ∨ kind = "inferredMrow" ∨ kind = "mstyle" ∨
     kind = "msqrt" ∨ kind = "merror" then -1
  else if kind = "msubsup" ∨ kind = "munderover" then 3
  else if kind = "msub" ∨ kind = "msup" ∨ kind = "munder" ∨
          kind = "mover" ∨ kind = "mfrac" then 2
  else if kind = "mo" ∨ kind = "mi" ∨ kind = "mn" ∨ kind = "mtext" ∨
          kind = "text" then 0
  else 1

/-- The replacement of an inferred child in the fixed-arity branch of
`createNode` (source lines 81-82): a fresh `mrow` holding the inferred
node's children, with the inferred node's attributes and properties copied
over. -/
def rewrapInferred (child : MNode) : MNode :=
  copyAttributes child (factoryCreate ("mrow") child.childNodes)

/-- The child-cleaning loop of the fixed-arity branch of `createNode`
(source lines 78-87): `for (let i = 0, child; child = children[i]; i++)`
stops at the first absent entry; an inferred child is replaced by its
`rewrapInferred` explicit grouping node; other children pass through
unchanged. -/
def cleanChildrenLoop : List (Option MNode) → List MNode
  | [] => []
  | none :: _ => []
  | some child :: rest =>
    if child.isInferred then rewrapInferred child :: cleanChildrenLoop rest
    else child :: cleanChildrenLoop rest

/-- The arity-aware child attachment of `createNode` (source lines 70-89):
for a variadic arity a single inferred child is unwrapped one level and any
other sequence is attached unchanged; for a fixed arity the cleaning loop
runs. -/
def attachChildren (kind : String) (children : List (Option MNode)) : MNode :=
  if arity kind = -1 then
    match children with
    | [some c] =>
      if c.isInferred then (factoryCreate kind []).withChildren c.childNodes
      else (factoryCreate kind []).withChildren children
    | _ => (factoryCreate kind []).withChildren children
  else (factoryCreate kind []).withChildren ((cleanChildrenLoop children).map some)

/-- The trailing-text step of `createNode` (source lines 90-92):
`if (text) node.appendChild(text)`. -/
def appendText (n : MNode) : Option MNode → MNode
  | some t => n.withChildren (n.childNodes ++ [some t])
  | none => n

/-- The body of `createNode(kind, children, def, text)` (source lines 64-95)
on inputs where it does not fault: construct the node, attach children
arity-aware, append the optional trailing text leaf, then apply
`setProperties`. -/
def createNodeCore (kind : String) (children : List (Option MNode))
    (defs : PropertyList) (text : Option MNode) : MNode :=
  setProperties (appendText (attachChildren kind children) text) defs

/-- Does the children sequence consist of exactly one absent entry?  On such
an input a variadic-arity `createNode` evaluates `children[0].isInferred` on
`undefined` and faults. -/
def singleAbsent : List (Option MNode) → Bool
  | [none] => true
  | _ => false

/-- `createNode` of the source.  The result is `none` exactly when the
JavaScript code raises a TypeError: a variadic-arity kind given the
children sequence `[undefined]`, whose single-inferred-child test reads
`isInferred` off `undefined`.  In every other case the result is the node
built by `createNodeCore`. -/
def createNode (kind : String) (children : List (Option MNode))
    (defs : PropertyList) (text : Option MNode) : Option MNode :=
  if arity kind = -1 ∧ singleAbsent children = true then none
  else some (createNodeCore kind children defs text)

/-- `createText(text)` of the source: `null` input produces no node at all;
otherwise a text leaf holding the string. -/
def createText : Option String → Option MNode
  | none => none
  | some s => some (.mk "text" [] [] [] none false s [])

/-- Modelled from the spec: an Operator Definition, the external immutable
lookup record of the Operator Dictionary.  Its contents are opaque to this
module; only identity matters. -/
structure OperatorDef where
  ident : Nat
deriving DecidableEq, Repr

/-- The lookup loop of `getForm` (source lines 315-320): try each candidate
form in order against the dictionary keyed by (form, literal text) and
return the first hit. -/
def lookupForms (optable : String → String → Option OperatorDef)
    (text : String) : List String → Option OperatorDef
  | [] => none
  | form :: rest =>
    match optable form text with
    | some symbol => some symbol
    | none => lookupForms optable text rest

/-- `getForm(node)` of the source (lines 309-322).  A node that is not of
kind `mo` yields no match immediately; otherwise the node's ordered
candidate-form list (`mo.getForms()`, an external contract, modelled from
the spec as the node's `forms` field) is tried in order against the
Operator Dictionary `MmlMo.OPTABLE`, modelled from the spec as the
read-only table passed in as `optable`, keyed by form and the node's
literal text (`mo.getText()`, modelled as the node's `text` field). -/
def getForm (optable : String → String → Option OperatorDef)
    (node : MNode) : Option OperatorDef :=
  if ¬ node.kind = "mo" then none
  else lookupForms optable node.text node.forms

/-- `children[i]` of the source: absent when the index is out of range or the
slot holds no value. -/
def slotAt (n : MNode) (i : Nat) : Option MNode :=
  (n.childNodes.get? i).join

/-- The collection condition of `cleanSubSup` (source lines 236-239): an
`msubsup` missing its subscript (slot 1) or superscript (slot 2), or an
`munderover` missing its under (slot 1) or over (slot 2) child.  The slot
indices of `MmlMsubsup` and `MmlMunderover` are modelled from the spec:
base 0, sub/under 1, sup/over 2. -/
def needsClean (n : MNode) : Bool :=
  (n.kind == "msubsup" && ((slotAt n 1).isNone || (slotAt n 2).isNone)) ||
  (n.kind == "munderover" && ((slotAt n 1).isNone || (slotAt n 2).isNone))

/-- The rewrite step of `cleanSubSup` for one collected node (source lines
243-263): an `msubsup` becomes an `msub` over base and subscript when the
subscript slot is occupied and otherwise an `msup` over base and superscript;
an `munderover` analogously becomes an `munder` or an `mover`; the old node's
attributes and properties are copied onto the new node.  The inner
`createNode` calls are on the fixed-arity kinds `msub`, `msup`, `munder`
and `mover` and therefore never fault, so `createNodeCore` is used. -/
def rewriteOne (n : MNode) : MNode :=
  if n.kind = "msubsup" then
    if (slotAt n 1).isSome then
      copyAttributes n (createNodeCore ("msub") [slotAt n 0, slotAt n 1] [] none)
    else
      copyAttributes n (createNodeCore ("msup") [slotAt n 0, slotAt n 2] [] none)
  else
    if (slotAt n 1).isSome then
      copyAttributes n (createNodeCore ("munder") [slotAt n 0, slotAt n 1] [] none)
    else
      copyAttributes n (createNodeCore ("mover") [slotAt n 0, slotAt n 2] [] none)

mutual

/-- `cleanSubSup(node)` of the source.  The source first collects the
deficient scripted nodes in reverse pre-order (`walkTree` with `unshift`)
and then rewrites them through parent-pointer surgery, so every node is
rewritten only after all of its descendants have been; rewriting a child
never changes an ancestor's kind or which of its slots are occupied, so
the net effect on the tree is this single bottom-up rewrite. -/
def cleanSubSup : MNode → MNode
  | n@(.mk k cs a p t i tx f) =>
    let n' := MNode.mk k (cleanList cs) a p t i tx f
    if needsClean n then rewriteOne n' else n'

def cleanList : List (Option MNode) → List (Option MNode)
  | [] => []
  | none :: rest => none :: cleanList rest
  | some c :: rest => some (cleanSubSup c) :: cleanList rest

end

mutual

/-- No node of the tree is a deficient two-slot scripted node: the state the
repair pass is meant to establish. -/
def cleanFree : MNode → Bool
  | n@(.mk _ cs _ _ _ _ _ _) => !needsClean n && cleanFreeList cs

def cleanFreeList : List (Option MNode) → Bool
  | [] => true
  | none :: rest => cleanFreeList rest
  | some c :: rest => cleanFree c && cleanFreeList rest

end

section Samples

/-- A childless node of the given kind, as the factory constructs it. -/
def leafNode (k : String) : MNode :=
  MNode.mk k [] [] [] none false "" []

def sampleBase : MNode := leafNode ("mi")

def sampleScript : MNode := leafNode ("mn")

/-- An `msubsup` whose subscript slot is occupied and whose superscript slot
is missing (the children sequence has length 2). -/
def sampleMsubsup : MNode :=
  MNode.mk "msubsup" [some sampleBase, some sampleScript] [] [] none false "" []

/-- An `munderover` whose under slot is missing and whose over slot is
occupied. -/
def sampleMunderover : MNode :=
  MNode.mk "munderover" [some sampleBase, none, some sampleScript] [] [] none
    false "" []

/-- A well-formed parent holding the deficient `msubsup` in its first slot. -/
def sampleParent : MNode :=
  MNode.mk "mrow" [some sampleMsubsup] [] [] none false "" []

/-- An `msubsup` missing both its subscript and its superscript slot. -/
def sampleBothMissing : MNode :=
  MNode.mk "msubsup" [some sampleBase] [] [] none false "" []

/-- An `munderover` missing both its under and its over slot. -/
def sampleBothMissingUO : MNode :=
  MNode.mk "munderover" [some sampleBase] [] [] none false "" []

/-- A deficient `msubsup` carrying a texClass, generic attributes and typed
properties, as produced by `createNode` with the metadata bag
`texClass: 4, color: red, autoOP: true, movablelimits: true`. -/
def sampleDecorated : MNode :=
  MNode.mk "msubsup" [some sampleBase, some sampleScript]
    [("color", PropVal.str "red")]
    [("autoOP", PropVal.bool true), ("movablelimits", PropVal.bool true)]
    (some (PropVal.num 4)) false "" []

/-- An inferred grouping node with two children. -/
def sampleInferred : MNode :=
  MNode.mk "mrow" [some sampleBase, some sampleScript] [("a", PropVal.num 1)]
    [("autoOP", PropVal.bool true)] none true "" []

/-- An operator node with literal text `+` and candidate forms
`infix, prefix`. -/
def sampleMo : MNode :=
  MNode.mk "mo" [] [] [] none false "+" ["infix", "prefix"]

/-- A small concrete Operator Dictionary: it has an entry for `+` under the
`infix` and the `prefix` form and nothing else. -/
def sampleTable (form text : String) : Option OperatorDef :=
  if text = "+" ∧ form = "infix" then some ⟨1⟩
  else if text = "+" ∧ form = "prefix" then some ⟨2⟩
  else none

end Samples

section BasicLemmas

theorem kind_withChildren (n : MNode) (cs : List (Option MNode)) :
    (n.withChildren cs).kind = n.kind := by
  cases n; rfl

theorem childNodes_withChildren (n : MNode) (cs : List (Option MNode)) :
    (n.withChildren cs).childNodes = cs := by
  cases n; rfl

theorem withChildren_self (n : MNode) : n.withChildren n.childNodes = n := by
  cases n; rfl

theorem getKV_setKV_self (m : PropertyList) (k : String) (v : PropVal) :
    getKV (setKV m k v) k = some v := by
  induction m with
  | nil => simp [setKV, getKV]
  | cons kv rest ih =>
    by_cases h : kv.1 = k
    · cases kv; simp_all [setKV, getKV]
    · cases kv; simp_all [setKV, getKV]

theorem getKV_setKV_ne (m : PropertyList) (k' k : String) (v : PropVal)
    (h : k' ≠ k) : getKV (setKV m k' v) k = getKV m k := by
  induction m with
  | nil => simp [setKV, getKV, h]
  | cons kv rest ih =>
    by_cases h2 : kv.1 = k'
    · cases kv; simp_all [setKV, getKV]
    · cases kv; simp only [setKV] at *; simp_all [getKV]

theorem shape_setPropertiesStep (n : MNode) (kv : String × PropVal) :
    (setPropertiesStep n kv).kind = n.kind ∧
    (setPropertiesStep n kv).childNodes = n.childNodes ∧
    (setPropertiesStep n kv).isInferred = n.isInferred ∧
    (setPropertiesStep n kv).text = n.text ∧
    (setPropertiesStep n kv).forms = n.forms := by
  cases n with
  | mk k cs a p t i tx f =>
    unfold setPropertiesStep
    by_cases h1 : kv.1 = "texClass" <;>
    by_cases h2 : kv.1 = "movablelimits" <;>
    by_cases h3 : kv.1 = "inferred" <;>
    by_cases h4 : kv.1 ∈ attrs <;>
    by_cases h5 : k = "mo" ∨ k = "mstyle" <;>
      simp_all [MNode.withTexClass, MNode.setProp, MNode.setAttr, MNode.kind,
        MNode.childNodes, MNode.isInferred, MNode.text, MNode.forms]

theorem shape_setProperties (n : MNode) (ps : PropertyList) :
    (setProperties n ps).kind = n.kind ∧
    (setProperties n ps).childNodes = n.childNodes ∧
    (setProperties n ps).isInferred = n.isInferred := by
  induction ps generalizing n with
  | nil => exact ⟨rfl, rfl, rfl⟩
  | cons kv rest ih =>
    have h := shape_setPropertiesStep n kv
    have h2 := ih (setPropertiesStep n kv)
    simp only [setProperties, List.foldl_cons] at *
    exact ⟨h2.1.trans h.1, h2.2.1.trans h.2.1, h2.2.2.trans h.2.2.1⟩

theorem shape_copyAttributes (a b : MNode) :
    (copyAttributes a b).kind = b.kind ∧
    (copyAttributes a b).childNodes = b.childNodes ∧
    (copyAttributes a b).isInferred = b.isInferred := by
  unfold copyAttributes
  have h := shape_setProperties (b.withAttributes a.attributes) a.properties
  cases b
  simpa [MNode.withAttributes, MNode.kind, MNode.childNodes,
    MNode.isInferred] using h

end BasicLemmas

section Induction

theorem sizeOf_lt_of_slot {c : MNode} {cs : List (Option MNode)}
    (h : some c ∈ cs) (k : String) (a p : PropertyList) (t : Option PropVal)
    (i : Bool) (tx : String) (f : List String) :
    sizeOf c < sizeOf (MNode.mk k cs a p t i tx f) := by
  have h1 : sizeOf (some c) < sizeOf cs := List.sizeOf_lt_of_mem h
  have h2 : sizeOf (some c) = 1 + sizeOf c := by simp
  simp only [MNode.mk.sizeOf_spec]
  omega

/-- Induction over a tree node with the inductive hypothesis available at
every present child slot. -/
theorem MNode.childInd (P : MNode → Prop)
    (h : ∀ k cs a p t i tx f, (∀ c, some c ∈ cs → P c) →
         P (MNode.mk k cs a p t i tx f)) :
    ∀ n, P n := by
  have main : ∀ (sz : Nat) (n : MNode), sizeOf n ≤ sz → P n := by
    intro sz
    induction sz with
    | zero =>
      intro n hn
      cases n with
      | mk k cs a p t i tx f => simp [MNode.mk.sizeOf_spec] at hn
    | succ sz ih =>
      intro n hn
      cases n with
      | mk k cs a p t i tx f =>
        refine h k cs a p t i tx f ?_
        intro c hc
        refine ih c ?_
        have := sizeOf_lt_of_slot hc k a p t i tx f
        omega
  intro n
  exact main (sizeOf n) n (Nat.le_refl _)

end Induction

section RepairLemmas

theorem setProperties_nil (n : MNode) : setProperties n [] = n := rfl

theorem cleanSubSup_mk (k : String) (cs : List (Option MNode))
    (a p : PropertyList) (t : Option PropVal) (i : Bool) (tx : String)
    (f : List String) :
    cleanSubSup (MNode.mk k cs a p t i tx f) =
      (if needsClean (MNode.mk k cs a p t i tx f) then
        rewriteOne (MNode.mk k (cleanList cs) a p t i tx f)
      else MNode.mk k (cleanList cs) a p t i tx f) := by
  rw [cleanSubSup]

theorem cleanSubSup_eq (n : MNode) :
    cleanSubSup n =
      (if needsClean n then rewriteOne (n.withChildren (cleanList n.childNodes))
      else n.withChildren (cleanList n.childNodes)) := by
  cases n with
  | mk k cs a p t i tx f =>
    rw [cleanSubSup_mk]
    rfl

theorem get?_cleanList (cs : List (Option MNode)) (i : Nat) :
    (cleanList cs).get? i = (cs.get? i).map (Option.map cleanSubSup) := by
  induction cs generalizing i with
  | nil => simp [cleanList]
  | cons c rest ih =>
    cases c with
    | none =>
      cases i with
      | zero => simp [cleanList]
      | succ j => simpa [cleanList] using ih j
    | some c =>
      cases i with
      | zero => simp [cleanList]
      | succ j => simpa [cleanList] using ih j

theorem length_cleanList (cs : List (Option MNode)) :
    (cleanList cs).length = cs.length := by
  induction cs with
  | nil => simp [cleanList]
  | cons c rest ih => cases c <;> simp [cleanList, ih]

theorem join_map_map {α β : Type} (f : α → β) (o : Option (Option α)) :
    (o.map (Option.map f)).join = (Option.join o).map f := by
  cases o with
  | none => rfl
  | some o' => cases o' <;> rfl

theorem slotAt_withClean (n : MNode) (i : Nat) :
    slotAt (n.withChildren (cleanList n.childNodes)) i =
      (slotAt n i).map cleanSubSup := by
  simp only [slotAt, childNodes_withChildren, get?_cleanList, join_map_map]

theorem needsClean_congr (a b : MNode) (hk : a.kind = b.kind)
    (hc : ∀ i, (slotAt a i).isNone = (slotAt b i).isNone) :
    needsClean a = needsClean b := by
  simp only [needsClean, hk, hc]

theorem needsClean_withClean (n : MNode) :
    needsClean (n.withChildren (cleanList n.childNodes)) = needsClean n := by
  refine needsClean_congr _ _ (kind_withChildren n _) ?_
  intro i
  rw [slotAt_withClean]
  cases slotAt n i <;> rfl

end RepairLemmas

section ShapeShortcuts

theorem kind_setProperties (n : MNode) (ps : PropertyList) :
    (setProperties n ps).kind = n.kind := (shape_setProperties n ps).1

theorem childNodes_setProperties (n : MNode) (ps : PropertyList) :
    (setProperties n ps).childNodes = n.childNodes :=
  (shape_setProperties n ps).2.1

theorem isInferred_setProperties (n : MNode) (ps : PropertyList) :
    (setProperties n ps).isInferred = n.isInferred :=
  (shape_setProperties n ps).2.2

theorem kind_copyAttributes (a b : MNode) :
    (copyAttributes a b).kind = b.kind := (shape_copyAttributes a b).1

theorem childNodes_copyAttributes (a b : MNode) :
    (copyAttributes a b).childNodes = b.childNodes :=
  (shape_copyAttributes a b).2.1

theorem isInferred_copyAttributes (a b : MNode) :
    (copyAttributes a b).isInferred = b.isInferred :=
  (shape_copyAttributes a b).2.2

theorem isInferred_withChildren (n : MNode) (cs : List (Option MNode)) :
    (n.withChildren cs).isInferred = n.isInferred := by
  cases n; rfl

theorem createNodeCore_fixed (kind : String) (children : List (Option MNode))
    (defs : PropertyList) (h : ¬ arity kind = -1) :
    createNodeCore kind children defs none =
      setProperties
        (MNode.mk kind ((cleanChildrenLoop children).map some) [] [] none
          false "" []) defs := by
  unfold createNodeCore attachChildren factoryCreate
  rw [if_neg h]
  rfl

end ShapeShortcuts

section CleanFreeLemmas

theorem cleanFree_def (n : MNode) :
    cleanFree n = (!needsClean n && cleanFreeList n.childNodes) := by
  cases n
  rw [cleanFree]
  rfl

theorem needsClean_eq_of (a b : MNode) (hk : a.kind = b.kind)
    (hc : a.childNodes = b.childNodes) : needsClean a = needsClean b := by
  simp only [needsClean, slotAt, hk, hc]

theorem cleanFree_eq_of (a b : MNode) (hk : a.kind = b.kind)
    (hc : a.childNodes = b.childNodes) : cleanFree a = cleanFree b := by
  rw [cleanFree_def, cleanFree_def, needsClean_eq_of a b hk hc, hc]

theorem cleanFreeList_of_cleanFree (c : MNode) (h : cleanFree c = true) :
    cleanFreeList c.childNodes = true := by
  rw [cleanFree_def] at h
  exact (Bool.and_eq_true_iff.mp h).2

theorem cleanFree_mem (cs : List (Option MNode)) (c : MNode)
    (hall : cleanFreeList cs = true) (hc : some c ∈ cs) :
    cleanFree c = true := by
  induction cs with
  | nil => simp at hc
  | cons x rest ih =>
    cases x with
    | none =>
      rw [cleanFreeList] at hall
      rcases List.mem_cons.mp hc with h | h
      · exact absurd h (by simp)
      · exact ih hall h
    | some x =>
      rw [cleanFreeList, Bool.and_eq_true_iff] at hall
      rcases List.mem_cons.mp hc with h | h
      · cases Option.some.injEq .. ▸ h
        exact Option.some_inj.mp h ▸ hall.1
      · exact ih hall.2 h

theorem cleanFreeList_map_some (l : List MNode)
    (h : ∀ x ∈ l, cleanFree x = true) : cleanFreeList (l.map some) = true := by
  induction l with
  | nil => rfl
  | cons x rest ih =>
    rw [List.map_cons, cleanFreeList, Bool.and_eq_true_iff]
    exact ⟨h x (List.mem_cons_self x rest), ih fun y hy => h y (List.mem_cons_of_mem x hy)⟩

theorem cleanFree_loop (l : List (Option MNode))
    (h : ∀ c, some c ∈ l → cleanFree c = true) :
    ∀ x ∈ cleanChildrenLoop l, cleanFree x = true := by
  induction l with
  | nil => simp [cleanChildrenLoop]
  | cons o rest ih =>
    cases o with
    | none => simp [cleanChildrenLoop]
    | some c =>
      intro x hx
      rw [cleanChildrenLoop] at hx
      have hc : cleanFree c = true := h c (List.mem_cons_self _ _)
      have hrest : ∀ c', some c' ∈ rest → cleanFree c' = true :=
        fun c' hc' => h c' (List.mem_cons_of_mem _ hc')
      by_cases hi : c.isInferred = true
      · rw [if_pos hi] at hx
        rcases List.mem_cons.mp hx with h1 | h1
        · subst h1
          rw [rewrapInferred,
            cleanFree_eq_of _ (factoryCreate ("mrow") c.childNodes)
              (kind_copyAttributes ..) (childNodes_copyAttributes ..),
            cleanFree_def]
          have h2 : needsClean (factoryCreate ("mrow") c.childNodes) = false := by
            simp [needsClean, factoryCreate, MNode.kind]
          rw [h2]
          simpa [factoryCreate, MNode.childNodes] using
            cleanFreeList_of_cleanFree c hc
        · exact ih hrest x h1
      · rw [if_neg hi] at hx
        rcases List.mem_cons.mp hx with h1 | h1
        · subst h1; exact hc
        · exact ih hrest x h1

theorem cleanFreeList_pair (o1 o2 : Option MNode)
    (h : ∀ c, some c ∈ [o1, o2] → cleanFree c = true) :
    cleanFreeList [o1, o2] = true := by
  cases o1 <;> cases o2 <;>
    simp_all [cleanFreeList]

theorem cleanFree_rewrite_result (old : MNode) (K : String)
    (o1 o2 : Option MNode) (hK1 : K ≠ "msubsup") (hK2 : K ≠ "munderover")
    (h : ∀ c, some c ∈ [o1, o2] → cleanFree c = true) :
    cleanFree (copyAttributes old (createNodeCore K [o1, o2] [] none)) = true := by
  rw [cleanFree_eq_of _ (createNodeCore K [o1, o2] [] none)
      (kind_copyAttributes ..) (childNodes_copyAttributes ..)]
  by_cases hv : arity K = -1
  · have hcore : createNodeCore K [o1, o2] [] none =
        MNode.mk K [o1, o2] [] [] none false "" [] := by
      unfold createNodeCore attachChildren factoryCreate
      rw [if_pos hv]
      cases o1 <;> cases o2 <;> rfl
    rw [hcore, cleanFree_def, Bool.and_eq_true_iff]
    refine ⟨?_, ?_⟩
    · simp [needsClean, MNode.kind, hK1, hK2]
    · simpa [MNode.childNodes] using cleanFreeList_pair o1 o2 h
  · have hcore : createNodeCore K [o1, o2] [] none =
        MNode.mk K ((cleanChildrenLoop [o1, o2]).map some) [] [] none
          false "" [] := by
      unfold createNodeCore attachChildren factoryCreate
      rw [if_neg hv]
      rfl
    rw [hcore, cleanFree_def, Bool.and_eq_true_iff]
    refine ⟨?_, ?_⟩
    · simp [needsClean, MNode.kind, hK1, hK2]
    · simpa [MNode.childNodes] using
        cleanFreeList_map_some _ (cleanFree_loop _ h)

end CleanFreeLemmas

section MainRepair

theorem slot_mem (n : MNode) (j : Nat) (c : MNode)
    (h : slotAt n j = some c) : some c ∈ n.childNodes := by
  unfold slotAt at h
  cases h2 : n.childNodes.get? j with
  | none => rw [h2] at h; cases h
  | some o =>
    rw [h2] at h
    cases o with
    | none => cases h
    | some c' =>
      cases h
      exact List.get?_mem h2

theorem cleanFreeList_cleanList (cs : List (Option MNode))
    (h : ∀ c, some c ∈ cs → cleanFree (cleanSubSup c) = true) :
    cleanFreeList (cleanList cs) = true := by
  induction cs with
  | nil => rfl
  | cons o rest ih =>
    cases o with
    | none =>
      rw [cleanList, cleanFreeList]
      exact ih fun c hc => h c (List.mem_cons_of_mem _ hc)
    | some c =>
      rw [cleanList, cleanFreeList, Bool.and_eq_true_iff]
      exact ⟨h c (List.mem_cons_self _ _),
        ih fun c' hc' => h c' (List.mem_cons_of_mem _ hc')⟩

theorem cleanFree_cleanSubSup (n : MNode) : cleanFree (cleanSubSup n) = true := by
  induction n using MNode.childInd with
  | _ k cs a p t i tx f IH =>
    rw [cleanSubSup_mk]
    have hs : ∀ j, slotAt (MNode.mk k (cleanList cs) a p t i tx f) j =
        (slotAt (MNode.mk k cs a p t i tx f) j).map cleanSubSup :=
      fun j => slotAt_withClean (MNode.mk k cs a p t i tx f) j
    have hclean : ∀ (j1 j2 : Nat) (c : MNode),
        some c ∈ [slotAt (MNode.mk k (cleanList cs) a p t i tx f) j1,
                   slotAt (MNode.mk k (cleanList cs) a p t i tx f) j2] →
        cleanFree c = true := by
      intro j1 j2 c hc
      have hj : slotAt (MNode.mk k (cleanList cs) a p t i tx f) j1 = some c ∨
          slotAt (MNode.mk k (cleanList cs) a p t i tx f) j2 = some c := by
        rcases List.mem_cons.mp hc with h1 | h1
        · exact Or.inl h1.symm
        · rcases List.mem_cons.mp h1 with h2 | h2
          · exact Or.inr h2.symm
          · simp at h2
      rcases hj with h1 | h1 <;> {
        rw [hs] at h1
        rcases Option.map_eq_some'.mp h1 with ⟨c0, hc0, hcc⟩
        subst hcc
        exact IH c0 (slot_mem _ _ _ hc0) }
    by_cases hn : needsClean (MNode.mk k cs a p t i tx f)
    · rw [if_pos hn]
      unfold rewriteOne
      split_ifs with h1 h2 h2 <;>
        exact cleanFree_rewrite_result _ _ _ _ (by decide) (by decide)
          (hclean _ _)
    · rw [if_neg hn, cleanFree_def, Bool.and_eq_true_iff]
      have hn' : needsClean (MNode.mk k (cleanList cs) a p t i tx f) =
          needsClean (MNode.mk k cs a p t i tx f) :=
        needsClean_withClean (MNode.mk k cs a p t i tx f)
      constructor
      · rw [hn', Bool.not_eq_true']
        exact Bool.eq_false_iff.mpr hn
      · exact cleanFreeList_cleanList cs IH

theorem cleanList_id_of (cs : List (Option MNode))
    (h : ∀ c, some c ∈ cs → cleanSubSup c = c) : cleanList cs = cs := by
  induction cs with
  | nil => rfl
  | cons o rest ih =>
    cases o with
    | none =>
      rw [cleanList, ih fun c hc => h c (List.mem_cons_of_mem _ hc)]
    | some c =>
      rw [cleanList, h c (List.mem_cons_self _ _),
        ih fun c' hc' => h c' (List.mem_cons_of_mem _ hc')]

theorem cleanSubSup_of_cleanFree (n : MNode) (h : cleanFree n = true) :
    cleanSubSup n = n := by
  induction n using MNode.childInd with
  | _ k cs a p t i tx f IH =>
    rw [cleanFree_def, Bool.and_eq_true_iff] at h
    obtain ⟨h1, h2⟩ := h
    rw [cleanSubSup_mk, if_neg (by simpa using h1)]
    rw [cleanList_id_of cs fun c hc => IH c hc (cleanFree_mem _ c h2 hc)]

end MainRepair

section RewriteShape

theorem isInferred_attachChildren (k : String) (ch : List (Option MNode)) :
    (attachChildren k ch).isInferred = false := by
  unfold attachChildren
  split_ifs with hv
  · cases ch with
    | nil => rfl
    | cons o rest =>
      cases o with
      | none => rfl
      | some c =>
        cases rest with
        | nil =>
          dsimp only
          by_cases hi : c.isInferred = true
          · rw [if_pos hi, isInferred_withChildren]
            rfl
          · rw [if_neg hi, isInferred_withChildren]
            rfl
        | cons o2 rest2 => rfl
  · rw [isInferred_withChildren]
    rfl

theorem isInferred_appendText (n : MNode) (o : Option MNode) :
    (appendText n o).isInferred = n.isInferred := by
  cases o <;> simp [appendText, isInferred_withChildren]

theorem isInferred_createNodeCore (k : String) (ch : List (Option MNode))
    (defs : PropertyList) (tx : Option MNode) :
    (createNodeCore k ch defs tx).isInferred = false := by
  unfold createNodeCore
  rw [isInferred_setProperties, isInferred_appendText, isInferred_attachChildren]

theorem isInferred_cleanSubSup (b : MNode) (h : b.isInferred = false) :
    (cleanSubSup b).isInferred = false := by
  cases b with
  | mk k cs a p t i tx f =>
    rw [cleanSubSup_mk]
    split_ifs with hn
    · unfold rewriteOne
      split_ifs <;> rw [isInferred_copyAttributes, isInferred_createNodeCore]
    · simpa [MNode.isInferred] using h

theorem loop_pair_clean (b s : MNode) (hb : b.isInferred = false)
    (hs : s.isInferred = false) :
    cleanChildrenLoop [some b, some s] = [b, s] := by
  simp [cleanChildrenLoop, hb, hs]

theorem loop_single_clean (b : MNode) (hb : b.isInferred = false) :
    cleanChildrenLoop [some b, none] = [b] := by
  simp [cleanChildrenLoop, hb]

theorem core_pair (K : String) (hK : ¬ arity K = -1) (b s : MNode)
    (hb : b.isInferred = false) (hs : s.isInferred = false) :
    createNodeCore K [some b, some s] [] none =
      MNode.mk K [some b, some s] [] [] none false "" [] := by
  rw [createNodeCore_fixed _ _ _ hK, loop_pair_clean _ _ hb hs]
  rfl

theorem core_single (K : String) (hK : ¬ arity K = -1) (b : MNode)
    (hb : b.isInferred = false) :
    createNodeCore K [some b, none] [] none =
      MNode.mk K [some b] [] [] none false "" [] := by
  rw [createNodeCore_fixed _ _ _ hK, loop_single_clean _ hb]
  rfl

end RewriteShape

section DemoteHelpers

theorem demote_shape (m : MNode) (K : String) (hK : ¬ arity K = -1)
    (b' s' : MNode) (hb : b'.isInferred = false) (hs : s'.isInferred = false)
    (w : MNode)
    (hm : m = copyAttributes w (createNodeCore K [some b', some s'] [] none)) :
    m.kind = K ∧ m.childNodes = [some b', some s'] := by
  rw [hm, kind_copyAttributes, childNodes_copyAttributes,
    core_pair K hK b' s' hb hs]
  exact ⟨rfl, rfl⟩

theorem demote_shape_single (m : MNode) (K : String) (hK : ¬ arity K = -1)
    (b' : MNode) (hb : b'.isInferred = false) (w : MNode)
    (hm : m = copyAttributes w (createNodeCore K [some b', none] [] none)) :
    m.kind = K ∧ m.childNodes = [some b'] := by
  rw [hm, kind_copyAttributes, childNodes_copyAttributes,
    core_single K hK b' hb]
  exact ⟨rfl, rfl⟩

theorem cleanList_nil : cleanList [] = [] := by
  rw [cleanList]

theorem cleanSubSup_childless (k : String)
    (h : needsClean (MNode.mk k [] [] [] none false "" []) = false) :
    cleanSubSup (MNode.mk k [] [] [] none false "" []) =
      MNode.mk k [] [] [] none false "" [] := by
  rw [cleanSubSup_mk, cleanList_nil, if_neg (by simp [h])]

theorem sampleBase_clean : cleanSubSup sampleBase = sampleBase :=
  cleanSubSup_childless ("mi") (by decide)

theorem sampleScript_clean : cleanSubSup sampleScript = sampleScript :=
  cleanSubSup_childless ("mn") (by decide)

end DemoteHelpers

section PropertyRouting

theorem attributes_step_ne (n : MNode) (kv : String × PropVal) (key : String)
    (h : ¬ kv.1 = key) :
    getKV (setPropertiesStep n kv).attributes key = getKV n.attributes key := by
  cases n with
  | mk k cs a p t i tx f =>
    unfold setPropertiesStep
    by_cases h1 : kv.1 = "texClass" <;>
    by_cases h2 : kv.1 = "movablelimits" <;>
    by_cases h3 : kv.1 = "inferred" <;>
    by_cases h4 : kv.1 ∈ attrs <;>
    by_cases h5 : k = "mo" ∨ k = "mstyle" <;>
      simp_all [MNode.withTexClass, MNode.setProp, MNode.setAttr, MNode.kind,
        MNode.attributes, getKV_setKV_ne]

theorem properties_step_ne (n : MNode) (kv : String × PropVal) (key : String)
    (h : ¬ kv.1 = key) :
    getKV (setPropertiesStep n kv).properties key = getKV n.properties key := by
  cases n with
  | mk k cs a p t i tx f =>
    unfold setPropertiesStep
    by_cases h1 : kv.1 = "texClass" <;>
    by_cases h2 : kv.1 = "movablelimits" <;>
    by_cases h3 : kv.1 = "inferred" <;>
    by_cases h4 : kv.1 ∈ attrs <;>
    by_cases h5 : k = "mo" ∨ k = "mstyle" <;>
      simp_all [MNode.withTexClass, MNode.setProp, MNode.setAttr, MNode.kind,
        MNode.properties, getKV_setKV_ne]

theorem texClass_step_ne (n : MNode) (kv : String × PropVal)
    (h : ¬ kv.1 = "texClass") :
    (setPropertiesStep n kv).texClass = n.texClass := by
  cases n with
  | mk k cs a p t i tx f =>
    unfold setPropertiesStep
    by_cases h2 : kv.1 = "movablelimits" <;>
    by_cases h3 : kv.1 = "inferred" <;>
    by_cases h4 : kv.1 ∈ attrs <;>
    by_cases h5 : k = "mo" ∨ k = "mstyle" <;>
      simp_all [MNode.withTexClass, MNode.setProp, MNode.setAttr, MNode.kind,
        MNode.texClass]

theorem attributes_not_mem (n : MNode) (ps : PropertyList) (key : String)
    (h : ∀ kv ∈ ps, ¬ kv.1 = key) :
    getKV (setProperties n ps).attributes key = getKV n.attributes key := by
  induction ps generalizing n with
  | nil => rfl
  | cons kv rest ih =>
    rw [setProperties, List.foldl_cons]
    rw [show List.foldl setPropertiesStep (setPropertiesStep n kv) rest =
      setProperties (setPropertiesStep n kv) rest from rfl]
    rw [ih _ fun kv' h' => h kv' (List.mem_cons_of_mem _ h')]
    exact attributes_step_ne n kv key (h kv (List.mem_cons_self _ _))

theorem properties_not_mem (n : MNode) (ps : PropertyList) (key : String)
    (h : ∀ kv ∈ ps, ¬ kv.1 = key) :
    getKV (setProperties n ps).properties key = getKV n.properties key := by
  induction ps generalizing n with
  | nil => rfl
  | cons kv rest ih =>
    rw [setProperties, List.foldl_cons]
    rw [show List.foldl setPropertiesStep (setPropertiesStep n kv) rest =
      setProperties (setPropertiesStep n kv) rest from rfl]
    rw [ih _ fun kv' h' => h kv' (List.mem_cons_of_mem _ h')]
    exact properties_step_ne n kv key (h kv (List.mem_cons_self _ _))

theorem texClass_not_mem (n : MNode) (ps : PropertyList)
    (h : ∀ kv ∈ ps, ¬ kv.1 = "texClass") :
    (setProperties n ps).texClass = n.texClass := by
  induction ps generalizing n with
  | nil => rfl
  | cons kv rest ih =>
    rw [setProperties, List.foldl_cons]
    rw [show List.foldl setPropertiesStep (setPropertiesStep n kv) rest =
      setProperties (setPropertiesStep n kv) rest from rfl]
    rw [ih _ fun kv' h' => h kv' (List.mem_cons_of_mem _ h')]
    exact texClass_step_ne n kv (h kv (List.mem_cons_self _ _))

theorem step_movablelimits (n : MNode) (kv : String × PropVal)
    (h : kv.1 = "movablelimits") :
    getKV (setPropertiesStep n kv).properties ("movablelimits") = some kv.2 ∧
    ((n.kind = "mo" ∨ n.kind = "mstyle") →
      getKV (setPropertiesStep n kv).attributes ("movablelimits") = some kv.2) ∧
    (¬ (n.kind = "mo" ∨ n.kind = "mstyle") →
      (setPropertiesStep n kv).attributes = n.attributes) := by
  cases n with
  | mk k cs a p t i tx f =>
    unfold setPropertiesStep
    by_cases h5 : k = "mo" ∨ k = "mstyle" <;>
      simp_all [MNode.withTexClass, MNode.setProp, MNode.setAttr, MNode.kind,
        MNode.properties, MNode.attributes, getKV_setKV_self]

theorem step_allowlist (n : MNode) (kv : String × PropVal)
    (h : kv.1 ∈ attrs) : setPropertiesStep n kv = n.setProp kv.1 kv.2 := by
  have h1 : ¬ kv.1 = "texClass" := fun he => by
    rw [he] at h; exact absurd h (by decide)
  have h2 : ¬ kv.1 = "movablelimits" := fun he => by
    rw [he] at h; exact absurd h (by decide)
  have h3 : ¬ kv.1 = "inferred" := fun he => by
    rw [he] at h; exact absurd h (by decide)
  unfold setPropertiesStep
  rw [if_neg h1, if_neg h2, if_neg h3, if_pos h]

theorem getProp_setProp (n : MNode) (k : String) (v : PropVal) :
    getKV (n.setProp k v).properties k = some v := by
  cases n
  simp [MNode.setProp, MNode.properties, getKV_setKV_self]

theorem kind_setProp (n : MNode) (k : String) (v : PropVal) :
    (n.setProp k v).kind = n.kind := by
  cases n; rfl

theorem attributes_setProp (n : MNode) (k : String) (v : PropVal) :
    (n.setProp k v).attributes = n.attributes := by
  cases n; rfl

/-- For a metadata bag with pairwise distinct keys, every key that the
classifier routes to a typed property (the allow-list and `movablelimits`)
ends up retrievable as a typed property with its value. -/
theorem properties_routed (n : MNode) (ps : PropertyList)
    (hnodup : (ps.map Prod.fst).Nodup)
    (hkeys : ∀ kv ∈ ps, kv.1 ∈ attrs ∨ kv.1 = "movablelimits") :
    ∀ kv ∈ ps, getKV (setProperties n ps).properties kv.1 = some kv.2 := by
  induction ps generalizing n with
  | nil => simp
  | cons kv0 rest ih =>
    intro kv hkv
    rw [List.map_cons, List.nodup_cons] at hnodup
    rw [setProperties, List.foldl_cons]
    rw [show List.foldl setPropertiesStep (setPropertiesStep n kv0) rest =
      setProperties (setPropertiesStep n kv0) rest from rfl]
    rcases List.mem_cons.mp hkv with h | h
    · subst h
      have hrest : ∀ kv' ∈ rest, ¬ kv'.1 = kv.1 := by
        intro kv' h' he
        exact hnodup.1 (he ▸ List.mem_map_of_mem Prod.fst h')
      rw [properties_not_mem _ rest kv.1 hrest]
      rcases hkeys kv (List.mem_cons_self _ _) with ha | hm
      · rw [step_allowlist n kv ha, getProp_setProp]
      · have := (step_movablelimits n kv hm).1
        rw [hm]
        exact this
    · exact ih (setPropertiesStep n kv0) hnodup.2
        (fun kv' h' => hkeys kv' (List.mem_cons_of_mem _ h')) kv h

/-- When the bag's keys all route to typed properties and the node is not of
kind `mo` or `mstyle`, the attribute map is untouched. -/
theorem attributes_untouched (n : MNode) (ps : PropertyList)
    (hkind : ¬ (n.kind = "mo" ∨ n.kind = "mstyle"))
    (hkeys : ∀ kv ∈ ps, kv.1 ∈ attrs ∨ kv.1 = "movablelimits") :
    (setProperties n ps).attributes = n.attributes := by
  induction ps generalizing n with
  | nil => rfl
  | cons kv rest ih =>
    rw [setProperties, List.foldl_cons]
    rw [show List.foldl setPropertiesStep (setPropertiesStep n kv) rest =
      setProperties (setPropertiesStep n kv) rest from rfl]
    have hkind' : ¬ ((setPropertiesStep n kv).kind = "mo" ∨
        (setPropertiesStep n kv).kind = "mstyle") := by
      rw [(shape_setPropertiesStep n kv).1]
      exact hkind
    rw [ih _ hkind' fun kv' h' => hkeys kv' (List.mem_cons_of_mem _ h')]
    rcases hkeys kv (List.mem_cons_self _ _) with ha | hm
    · rw [step_allowlist n kv ha, attributes_setProp]
    · exact (step_movablelimits n kv hm).2.2 hkind

end PropertyRouting

section RewriteState

theorem attributes_withChildren (n : MNode) (cs : List (Option MNode)) :
    (n.withChildren cs).attributes = n.attributes := by
  cases n; rfl

theorem properties_withChildren (n : MNode) (cs : List (Option MNode)) :
    (n.withChildren cs).properties = n.properties := by
  cases n; rfl

theorem attachChildren_shape (k : String) (ch : List (Option MNode)) :
    ∃ cs, attachChildren k ch = MNode.mk k cs [] [] none false "" [] := by
  unfold attachChildren factoryCreate
  split_ifs with hv
  · cases ch with
    | nil => exact ⟨_, rfl⟩
    | cons o rest =>
      cases o with
      | none => exact ⟨_, rfl⟩
      | some c =>
        cases rest with
        | nil =>
          dsimp only
          by_cases hi : c.isInferred = true
          · rw [if_pos hi]; exact ⟨_, rfl⟩
          · rw [if_neg hi]; exact ⟨_, rfl⟩
        | cons o2 r2 => exact ⟨_, rfl⟩
  · exact ⟨_, rfl⟩

/-- A node rewritten by the repair pass is, up to the children attached by
`createNode`, the result of applying `setProperties` with the old node's
typed properties to a fresh single-script node carrying the old node's
attribute map: exactly what `copyAttributes` performs on the freshly
created node. -/
theorem rewrite_as_setProperties (n : MNode) (hneeds : needsClean n = true) :
    ∃ K cs, (K = "msub" ∨ K = "msup" ∨ K = "munder" ∨ K = "mover") ∧
      cleanSubSup n =
        setProperties (MNode.mk K cs n.attributes [] none false "" [])
          n.properties := by
  rw [cleanSubSup_eq n, if_pos hneeds]
  unfold rewriteOne
  have hattr : (n.withChildren (cleanList n.childNodes)).attributes =
      n.attributes := attributes_withChildren ..
  have hprop : (n.withChildren (cleanList n.childNodes)).properties =
      n.properties := properties_withChildren ..
  split_ifs with h1 h2 h2
  · obtain ⟨cs, hcs⟩ := attachChildren_shape ("msub")
      [slotAt (n.withChildren (cleanList n.childNodes)) 0,
       slotAt (n.withChildren (cleanList n.childNodes)) 1]
    refine ⟨"msub", cs, by tauto, ?_⟩
    rw [show createNodeCore ("msub")
        [slotAt (n.withChildren (cleanList n.childNodes)) 0,
         slotAt (n.withChildren (cleanList n.childNodes)) 1] [] none =
      attachChildren ("msub")
        [slotAt (n.withChildren (cleanList n.childNodes)) 0,
         slotAt (n.withChildren (cleanList n.childNodes)) 1] from rfl, hcs]
    unfold copyAttributes
    rw [hattr, hprop]
    rfl
  · obtain ⟨cs, hcs⟩ := attachChildren_shape ("msup")
      [slotAt (n.withChildren (cleanList n.childNodes)) 0,
       slotAt (n.withChildren (cleanList n.childNodes)) 2]
    refine ⟨"msup", cs, by tauto, ?_⟩
    rw [show createNodeCore ("msup")
        [slotAt (n.withChildren (cleanList n.childNodes)) 0,
         slotAt (n.withChildren (cleanList n.childNodes)) 2] [] none =
      attachChildren ("msup")
        [slotAt (n.withChildren (cleanList n.childNodes)) 0,
         slotAt (n.withChildren (cleanList n.childNodes)) 2] from rfl, hcs]
    unfold copyAttributes
    rw [hattr, hprop]
    rfl
  · obtain ⟨cs, hcs⟩ := attachChildren_shape ("munder")
      [slotAt (n.withChildren (cleanList n.childNodes)) 0,
       slotAt (n.withChildren (cleanList n.childNodes)) 1]
    refine ⟨"munder", cs, by tauto, ?_⟩
    rw [show createNodeCore ("munder")
        [slotAt (n.withChildren (cleanList n.childNodes)) 0,
         slotAt (n.withChildren (cleanList n.childNodes)) 1] [] none =
      attachChildren ("munder")
        [slotAt (n.withChildren (cleanList n.childNodes)) 0,
         slotAt (n.withChildren (cleanList n.childNodes)) 1] from rfl, hcs]
    unfold copyAttributes
    rw [hattr, hprop]
    rfl
  · obtain ⟨cs, hcs⟩ := attachChildren_shape ("mover")
      [slotAt (n.withChildren (cleanList n.childNodes)) 0,
       slotAt (n.withChildren (cleanList n.childNodes)) 2]
    refine ⟨"mover", cs, by tauto, ?_⟩
    rw [show createNodeCore ("mover")
        [slotAt (n.withChildren (cleanList n.childNodes)) 0,
         slotAt (n.withChildren (cleanList n.childNodes)) 2] [] none =
      attachChildren ("mover")
        [slotAt (n.withChildren (cleanList n.childNodes)) 0,
         slotAt (n.withChildren (cleanList n.childNodes)) 2] from rfl, hcs]
    unfold copyAttributes
    rw [hattr, hprop]
    rfl

end RewriteState

section CreateNodeLemmas

theorem singleAbsent_some (c : MNode) : singleAbsent [some c] = false := rfl

theorem createNode_not_variadic (kind : String) (children : List (Option MNode))
    (defs : PropertyList) (tx : Option MNode) (h : ¬ arity kind = -1) :
    createNode kind children defs tx =
      some (createNodeCore kind children defs tx) := by
  unfold createNode
  rw [if_neg fun hc => h hc.1]

theorem childNodes_attach_fixed (kind : String) (ch : List (Option MNode))
    (h : ¬ arity kind = -1) :
    (attachChildren kind ch).childNodes = (cleanChildrenLoop ch).map some := by
  unfold attachChildren
  rw [if_neg h, childNodes_withChildren]

theorem childNodes_createNodeCore_fixed (kind : String)
    (ch : List (Option MNode)) (defs : PropertyList) (h : ¬ arity kind = -1) :
    (createNodeCore kind ch defs none).childNodes =
      (cleanChildrenLoop ch).map some := by
  unfold createNodeCore
  rw [childNodes_setProperties]
  show (attachChildren kind ch).childNodes = _
  rw [childNodes_attach_fixed kind ch h]

theorem loop_map_of_pres (ch : List (Option MNode))
    (hpres : ∀ x ∈ ch, x.isNone = false) :
    (cleanChildrenLoop ch).map some =
      ch.map (Option.map fun c =>
        if c.isInferred = true then rewrapInferred c else c) := by
  induction ch with
  | nil => rfl
  | cons o rest ih =>
    cases o with
    | none => simpa using hpres none (List.mem_cons_self _ _)
    | some c =>
      rw [cleanChildrenLoop]
      by_cases hi : c.isInferred = true
      · rw [if_pos hi, List.map_cons, List.map_cons,
          ih fun x hx => hpres x (List.mem_cons_of_mem _ hx)]
        rw [Option.map_some', if_pos hi]
      · rw [if_neg hi, List.map_cons, List.map_cons,
          ih fun x hx => hpres x (List.mem_cons_of_mem _ hx)]
        rw [Option.map_some', if_neg hi]

theorem loop_length_le (ch : List (Option MNode)) :
    (cleanChildrenLoop ch).length ≤ ch.length := by
  induction ch with
  | nil => exact Nat.le_refl _
  | cons o rest ih =>
    cases o with
    | none => simp [cleanChildrenLoop]
    | some c =>
      rw [cleanChildrenLoop]
      by_cases hi : c.isInferred = true
      · rw [if_pos hi]
        simpa using Nat.succ_le_succ ih
      · rw [if_neg hi]
        simpa using Nat.succ_le_succ ih

theorem loop_append_none (pre post : List (Option MNode))
    (hpre : ∀ x ∈ pre, x.isNone = false) :
    cleanChildrenLoop (pre ++ none :: post) = cleanChildrenLoop pre := by
  induction pre with
  | nil => rfl
  | cons o rest ih =>
    cases o with
    | none => simpa using hpre none (List.mem_cons_self _ _)
    | some c =>
      rw [List.cons_append, cleanChildrenLoop, cleanChildrenLoop,
        ih fun x hx => hpre x (List.mem_cons_of_mem _ hx)]

theorem loop_length_pres (pre : List (Option MNode))
    (hpre : ∀ x ∈ pre, x.isNone = false) :
    (cleanChildrenLoop pre).length = pre.length := by
  induction pre with
  | nil => rfl
  | cons o rest ih =>
    cases o with
    | none => simpa using hpre none (List.mem_cons_self _ _)
    | some c =>
      rw [cleanChildrenLoop]
      by_cases hi : c.isInferred = true
      · rw [if_pos hi, List.length_cons, List.length_cons,
          ih fun x hx => hpre x (List.mem_cons_of_mem _ hx)]
      · rw [if_neg hi, List.length_cons, List.length_cons,
          ih fun x hx => hpre x (List.mem_cons_of_mem _ hx)]

end CreateNodeLemmas

section GetFormLemmas

theorem lookupForms_eq_findSome (optable : String → String → Option OperatorDef)
    (t : String) (fs : List String) :
    lookupForms optable t fs = fs.findSome? fun fm => optable fm t := by
  induction fs with
  | nil => rfl
  | cons fm rest ih =>
    rw [lookupForms, List.findSome?_cons]
    cases optable fm t with
    | none => exact ih
    | some d => rfl

theorem findSome_first_hit (optable : String → String → Option OperatorDef)
    (t : String) (l1 l2 : List String) (fm : String) (d : OperatorDef)
    (h1 : ∀ g ∈ l1, optable g t = none) (h2 : optable fm t = some d) :
    ((l1 ++ fm :: l2).findSome? fun g => optable g t) = some d := by
  induction l1 with
  | nil => simp [List.findSome?_cons, h2]
  | cons g rest ih =>
    rw [List.cons_append, List.findSome?_cons,
      h1 g (List.mem_cons_self _ _)]
    exact ih fun g' hg' => h1 g' (List.mem_cons_of_mem _ hg')

end GetFormLemmas

section Claims

/-- C1: for every tree whose root is passed to `cleanSubSup`, a node of kind
`msubsup` that is missing exactly one of its subscript/superscript slots is
rewritten to an `msub` over (base, subscript) when the subscript slot is
present and to an `msup` over (base, superscript) otherwise; an `munderover`
missing exactly one of under/over analogously becomes an `munder` or an
`mover`; inside a parent that is not itself rewritten the new node takes the
old node's child slot, and a rewritten root is the returned root (the value
of `cleanSubSup` itself). -/
theorem claim1_repair_demotes_deficient (n b s pnode : MNode) (j : Nat) :
    (n.kind = "msubsup" → slotAt n 0 = some b → b.isInferred = false →
      slotAt n 1 = some s → s.isInferred = false → slotAt n 2 = none →
      (cleanSubSup n).kind = "msub" ∧
      (cleanSubSup n).childNodes =
        [some (cleanSubSup b), some (cleanSubSup s)]) ∧
    (n.kind = "msubsup" → slotAt n 0 = some b → b.isInferred = false →
      slotAt n 1 = none → slotAt n 2 = some s → s.isInferred = false →
      (cleanSubSup n).kind = "msup" ∧
      (cleanSubSup n).childNodes =
        [some (cleanSubSup b), some (cleanSubSup s)]) ∧
    (n.kind = "munderover" → slotAt n 0 = some b → b.isInferred = false →
      slotAt n 1 = some s → s.isInferred = false → slotAt n 2 = none →
      (cleanSubSup n).kind = "munder" ∧
      (cleanSubSup n).childNodes =
        [some (cleanSubSup b), some (cleanSubSup s)]) ∧
    (n.kind = "munderover" → slotAt n 0 = some b → b.isInferred = false →
      slotAt n 1 = none → slotAt n 2 = some s → s.isInferred = false →
      (cleanSubSup n).kind = "mover" ∧
      (cleanSubSup n).childNodes =
        [some (cleanSubSup b), some (cleanSubSup s)]) ∧
    (needsClean pnode = false → slotAt pnode j = some n →
      slotAt (cleanSubSup pnode) j = some (cleanSubSup n)) := by
  refine ⟨?_, ?_, ?_, ?_, ?_⟩
  · intro hk h0 hbi h1 hsi h2
    have hneeds : needsClean n = true := by simp [needsClean, hk, h2]
    have e0 : slotAt (n.withChildren (cleanList n.childNodes)) 0 =
        some (cleanSubSup b) := by rw [slotAt_withClean, h0]; rfl
    have e1 : slotAt (n.withChildren (cleanList n.childNodes)) 1 =
        some (cleanSubSup s) := by rw [slotAt_withClean, h1]; rfl
    have ek : (n.withChildren (cleanList n.childNodes)).kind = "msubsup" := by
      rw [kind_withChildren, hk]
    refine demote_shape _ _ (by decide) _ _ (isInferred_cleanSubSup b hbi)
      (isInferred_cleanSubSup s hsi) (n.withChildren (cleanList n.childNodes)) ?_
    rw [cleanSubSup_eq n, if_pos hneeds]
    unfold rewriteOne
    rw [if_pos ek, e0, e1]
    rfl
  · intro hk h0 hbi h1 h2 hsi
    have hneeds : needsClean n = true := by simp [needsClean, hk, h1]
    have e0 : slotAt (n.withChildren (cleanList n.childNodes)) 0 =
        some (cleanSubSup b) := by rw [slotAt_withClean, h0]; rfl
    have e1 : slotAt (n.withChildren (cleanList n.childNodes)) 1 = none := by
      rw [slotAt_withClean, h1]; rfl
    have e2 : slotAt (n.withChildren (cleanList n.childNodes)) 2 =
        some (cleanSubSup s) := by rw [slotAt_withClean, h2]; rfl
    have ek : (n.withChildren (cleanList n.childNodes)).kind = "msubsup" := by
      rw [kind_withChildren, hk]
    refine demote_shape _ _ (by decide) _ _ (isInferred_cleanSubSup b hbi)
      (isInferred_cleanSubSup s hsi) (n.withChildren (cleanList n.childNodes)) ?_
    rw [cleanSubSup_eq n, if_pos hneeds]
    unfold rewriteOne
    rw [if_pos ek, e0, e1, e2]
    rfl
  · intro hk h0 hbi h1 hsi h2
    have hneeds : needsClean n = true := by simp [needsClean, hk, h2]
    have e0 : slotAt (n.withChildren (cleanList n.childNodes)) 0 =
        some (cleanSubSup b) := by rw [slotAt_withClean, h0]; rfl
    have e1 : slotAt (n.withChildren (cleanList n.childNodes)) 1 =
        some (cleanSubSup s) := by rw [slotAt_withClean, h1]; rfl
    have ek : ¬ (n.withChildren (cleanList n.childNodes)).kind = "msubsup" := by
      rw [kind_withChildren, hk]; decide
    refine demote_shape _ _ (by decide) _ _ (isInferred_cleanSubSup b hbi)
      (isInferred_cleanSubSup s hsi) (n.withChildren (cleanList n.childNodes)) ?_
    rw [cleanSubSup_eq n, if_pos hneeds]
    unfold rewriteOne
    rw [if_neg ek, e0, e1]
    rfl
  · intro hk h0 hbi h1 h2 hsi
    have hneeds : needsClean n = true := by simp [needsClean, hk, h1]
    have e0 : slotAt (n.withChildren (cleanList n.childNodes)) 0 =
        some (cleanSubSup b) := by rw [slotAt_withClean, h0]; rfl
    have e1 : slotAt (n.withChildren (cleanList n.childNodes)) 1 = none := by
      rw [slotAt_withClean, h1]; rfl
    have e2 : slotAt (n.withChildren (cleanList n.childNodes)) 2 =
        some (cleanSubSup s) := by rw [slotAt_withClean, h2]; rfl
    have ek : ¬ (n.withChildren (cleanList n.childNodes)).kind = "msubsup" := by
      rw [kind_withChildren, hk]; decide
    refine demote_shape _ _ (by decide) _ _ (isInferred_cleanSubSup b hbi)
      (isInferred_cleanSubSup s hsi) (n.withChildren (cleanList n.childNodes)) ?_
    rw [cleanSubSup_eq n, if_pos hneeds]
    unfold rewriteOne
    rw [if_neg ek, e0, e1, e2]
    rfl
  · intro hpn hslot
    rw [cleanSubSup_eq pnode, if_neg (by simp [hpn]), slotAt_withClean, hslot]
    rfl

/-- Witness for C1 at a concrete tree: an `msubsup` with base `mi`, an
occupied subscript slot and a missing superscript slot is demoted to an
`msub` over the same base and subscript, and inside an `mrow` parent the
demoted node takes the old child slot. -/
theorem claim1_repair_demotes_deficient_witness :
    sampleMsubsup.kind = "msubsup" ∧
    slotAt sampleMsubsup 0 = some sampleBase ∧
    slotAt sampleMsubsup 1 = some sampleScript ∧
    slotAt sampleMsubsup 2 = none ∧
    (cleanSubSup sampleMsubsup).kind = "msub" ∧
    (cleanSubSup sampleMsubsup).childNodes =
      [some sampleBase, some sampleScript] ∧
    slotAt (cleanSubSup sampleParent) 0 = some (cleanSubSup sampleMsubsup) := by
  have h := claim1_repair_demotes_deficient sampleMsubsup sampleBase
    sampleScript sampleParent 0
  have h1 := h.1 rfl rfl rfl rfl rfl rfl
  have h5 := h.2.2.2.2 (by decide) rfl
  refine ⟨rfl, rfl, rfl, rfl, h1.1, ?_, h5⟩
  rw [h1.2, sampleBase_clean, sampleScript_clean]

/-- C2: the repair pass is idempotent: repairing an already repaired tree
changes nothing, because no node produced by a rewrite is again a deficient
two-slot scripted node. -/
theorem claim2_repair_idempotent (n : MNode) :
    cleanSubSup (cleanSubSup n) = cleanSubSup n :=
  cleanSubSup_of_cleanFree _ (cleanFree_cleanSubSup n)

/-- C9: an `msubsup` missing both its subscript and its superscript slot is
rewritten to an `msup` whose attached children consist of the base alone
(the absent superscript is dropped by the child-attachment loop); an
`munderover` missing both slots becomes an `mover` over the base alone. -/
theorem claim9_repair_both_missing (n b : MNode)
    (h0 : slotAt n 0 = some b) (hbi : b.isInferred = false)
    (h1 : slotAt n 1 = none) (h2 : slotAt n 2 = none) :
    (n.kind = "msubsup" → (cleanSubSup n).kind = "msup" ∧
      (cleanSubSup n).childNodes = [some (cleanSubSup b)]) ∧
    (n.kind = "munderover" → (cleanSubSup n).kind = "mover" ∧
      (cleanSubSup n).childNodes = [some (cleanSubSup b)]) := by
  have e0 : slotAt (n.withChildren (cleanList n.childNodes)) 0 =
      some (cleanSubSup b) := by rw [slotAt_withClean, h0]; rfl
  have e1 : slotAt (n.withChildren (cleanList n.childNodes)) 1 = none := by
    rw [slotAt_withClean, h1]; rfl
  have e2 : slotAt (n.withChildren (cleanList n.childNodes)) 2 = none := by
    rw [slotAt_withClean, h2]; rfl
  constructor
  · intro hk
    have hneeds : needsClean n = true := by simp [needsClean, hk, h1]
    have ek : (n.withChildren (cleanList n.childNodes)).kind = "msubsup" := by
      rw [kind_withChildren, hk]
    refine demote_shape_single _ _ (by decide) _
      (isInferred_cleanSubSup b hbi) (n.withChildren (cleanList n.childNodes)) ?_
    rw [cleanSubSup_eq n, if_pos hneeds]
    unfold rewriteOne
    rw [if_pos ek, e0, e1, e2]
    rfl
  · intro hk
    have hneeds : needsClean n = true := by simp [needsClean, hk, h1]
    have ek : ¬ (n.withChildren (cleanList n.childNodes)).kind = "msubsup" := by
      rw [kind_withChildren, hk]; decide
    refine demote_shape_single _ _ (by decide) _
      (isInferred_cleanSubSup b hbi) (n.withChildren (cleanList n.childNodes)) ?_
    rw [cleanSubSup_eq n, if_pos hneeds]
    unfold rewriteOne
    rw [if_neg ek, e0, e1, e2]
    rfl

/-- Witness for C9 at concrete trees: an `msubsup` and an `munderover` each
holding only a base child are demoted to an `msup` and an `mover` holding
the base alone. -/
theorem claim9_repair_both_missing_witness :
    (cleanSubSup sampleBothMissing).kind = "msup" ∧
    (cleanSubSup sampleBothMissing).childNodes = [some sampleBase] ∧
    (cleanSubSup sampleBothMissingUO).kind = "mover" ∧
    (cleanSubSup sampleBothMissingUO).childNodes = [some sampleBase] := by
  have ha := (claim9_repair_both_missing sampleBothMissing sampleBase
    rfl rfl rfl rfl).1 rfl
  have hb := (claim9_repair_both_missing sampleBothMissingUO sampleBase
    rfl rfl rfl rfl).2 rfl
  refine ⟨ha.1, ?_, hb.1, ?_⟩
  · rw [ha.2, sampleBase_clean]
  · rw [hb.2, sampleBase_clean]

/-- C3 counterexample: a deficient `msubsup` carrying `texClass = 4` is
rewritten by the repair pass to a node whose `texClass` is unset:
`copyAttributes` transfers the attribute map and the typed-property map but
never reads the old node's `texClass` field, so the claimed full copy
including texClass fails. -/
theorem claim3_counterexample :
    sampleDecorated.texClass = some (PropVal.num 4) ∧
    (cleanSubSup sampleDecorated).texClass = none ∧
    ¬ (cleanSubSup sampleDecorated).texClass = sampleDecorated.texClass := by
  obtain ⟨K, cs, hK, heq⟩ := rewrite_as_setProperties sampleDecorated (by decide)
  have ht : (setProperties
      (MNode.mk K cs sampleDecorated.attributes [] none false "" [])
      sampleDecorated.properties).texClass = none := by
    rw [texClass_not_mem _ _ (by decide)]
    rfl
  refine ⟨rfl, ?_, ?_⟩
  · rw [heq]
    exact ht
  · rw [heq, ht]
    decide

/-- C3 as amended: the replacement node receives the old node's generic
attribute map in full and every typed property of the old node (whose keys,
for nodes built through this helper module, lie in the allow-list or are
`movablelimits`) with equal value; the old node's `texClass` field is NOT
copied: the replacement keeps the freshly constructed node's unset
texClass. -/
theorem claim3_rewrite_copies_attributes (n : MNode)
    (hneeds : needsClean n = true)
    (hnodup : (n.properties.map Prod.fst).Nodup)
    (hkeys : ∀ kv ∈ n.properties, kv.1 ∈ attrs ∨ kv.1 = "movablelimits") :
    (cleanSubSup n).attributes = n.attributes ∧
    (∀ kv ∈ n.properties, getKV (cleanSubSup n).properties kv.1 = some kv.2) ∧
    (cleanSubSup n).texClass = none := by
  obtain ⟨K, cs, hK, heq⟩ := rewrite_as_setProperties n hneeds
  have hkind : ¬ ((MNode.mk K cs n.attributes [] none false "" []).kind = "mo" ∨
      (MNode.mk K cs n.attributes [] none false "" []).kind = "mstyle") := by
    rcases hK with h | h | h | h <;> subst h <;> simp [MNode.kind]
  have hno : ∀ kv ∈ n.properties, ¬ kv.1 = "texClass" := by
    intro kv hkv he
    rcases hkeys kv hkv with ha | hm
    · rw [he] at ha
      exact absurd ha (by decide)
    · rw [he] at hm
      exact absurd hm (by decide)
  refine ⟨?_, ?_, ?_⟩
  · rw [heq, attributes_untouched _ _ hkind hkeys]
    rfl
  · intro kv hkv
    rw [heq]
    exact properties_routed _ _ hnodup hkeys kv hkv
  · rw [heq, texClass_not_mem _ _ hno]
    rfl

/-- Witness for the amended C3 at a concrete decorated node: attribute map
transferred verbatim, both typed properties transferred with their values,
texClass left unset. -/
theorem claim3_rewrite_copies_attributes_witness :
    (cleanSubSup sampleDecorated).attributes = [("color", PropVal.str "red")] ∧
    getKV (cleanSubSup sampleDecorated).properties ("autoOP") =
      some (PropVal.bool true) ∧
    getKV (cleanSubSup sampleDecorated).properties ("movablelimits") =
      some (PropVal.bool true) ∧
    (cleanSubSup sampleDecorated).texClass = none := by
  have h := claim3_rewrite_copies_attributes sampleDecorated (by decide)
    (by decide) (by decide)
  refine ⟨h.1, ?_, ?_, h.2.2⟩
  · exact h.2.1 ("autoOP", PropVal.bool true) (by decide)
  · exact h.2.1 ("movablelimits", PropVal.bool true) (by decide)

/-- C6: for a metadata bag with pairwise distinct keys containing
`movablelimits` with value `v`, `setProperties` stores `v` as the typed
property `movablelimits`, and mirrors it into the generic attribute map
exactly when the node is of kind `mo` or `mstyle`; on any other kind the
attribute map's `movablelimits` entry is untouched. -/
theorem claim6_movablelimits_mirroring (node : MNode) (props : PropertyList)
    (v : PropVal) (hnodup : (props.map Prod.fst).Nodup)
    (hmem : ("movablelimits", v) ∈ props) :
    getKV (setProperties node props).properties ("movablelimits") = some v ∧
    ((node.kind = "mo" ∨ node.kind = "mstyle") →
      getKV (setProperties node props).attributes ("movablelimits") = some v) ∧
    (¬ (node.kind = "mo" ∨ node.kind = "mstyle") →
      getKV (setProperties node props).attributes ("movablelimits") =
        getKV node.attributes ("movablelimits")) := by
  induction props generalizing node with
  | nil => simp at hmem
  | cons kv0 rest ih =>
    rw [List.map_cons, List.nodup_cons] at hnodup
    rw [setProperties, List.foldl_cons,
      show List.foldl setPropertiesStep (setPropertiesStep node kv0) rest =
        setProperties (setPropertiesStep node kv0) rest from rfl]
    by_cases h0 : kv0.1 = "movablelimits"
    · have hv : kv0.2 = v := by
        rcases List.mem_cons.mp hmem with h | h
        · rw [← h]
        · exact absurd (h0 ▸ List.mem_map_of_mem Prod.fst h) hnodup.1
      have hrest : ∀ kv' ∈ rest, ¬ kv'.1 = "movablelimits" := by
        intro kv' h' he
        exact hnodup.1 (h0 ▸ he ▸ List.mem_map_of_mem Prod.fst h')
      have hml := step_movablelimits node kv0 h0
      refine ⟨?_, ?_, ?_⟩
      · rw [properties_not_mem _ rest _ hrest, hml.1, hv]
      · intro hk
        rw [attributes_not_mem _ rest _ hrest, hml.2.1 hk, hv]
      · intro hk
        rw [attributes_not_mem _ rest _ hrest, hml.2.2 hk]
    · have hmem' : ("movablelimits", v) ∈ rest := by
        rcases List.mem_cons.mp hmem with h | h
        · exact absurd (congrArg Prod.fst h.symm) h0
        · exact h
      have hih := ih (setPropertiesStep node kv0) hnodup.2 hmem'
      rw [(shape_setPropertiesStep node kv0).1] at hih
      refine ⟨hih.1, hih.2.1, ?_⟩
      intro hk
      rw [hih.2.2 hk, attributes_step_ne node kv0 _ h0]

/-- Witness for C6: `movablelimits: true` on an `mo` node yields both the
typed property and the generic attribute; on an `mfrac` node only the typed
property, the attribute map stays empty. -/
theorem claim6_movablelimits_mirroring_witness :
    getKV (setProperties (leafNode ("mo"))
      [("movablelimits", PropVal.bool true)]).properties ("movablelimits") =
      some (PropVal.bool true) ∧
    getKV (setProperties (leafNode ("mo"))
      [("movablelimits", PropVal.bool true)]).attributes ("movablelimits") =
      some (PropVal.bool true) ∧
    getKV (setProperties (leafNode ("mfrac"))
      [("movablelimits", PropVal.bool true)]).properties ("movablelimits") =
      some (PropVal.bool true) ∧
    getKV (setProperties (leafNode ("mfrac"))
      [("movablelimits", PropVal.bool true)]).attributes ("movablelimits") =
      none := by
  have hmo := claim6_movablelimits_mirroring (leafNode ("mo"))
    [("movablelimits", PropVal.bool true)] (PropVal.bool true)
    (by decide) (by decide)
  have hmf := claim6_movablelimits_mirroring (leafNode ("mfrac"))
    [("movablelimits", PropVal.bool true)] (PropVal.bool true)
    (by decide) (by decide)
  exact ⟨hmo.1, hmo.2.1 (Or.inl rfl), hmf.1, (hmf.2.2 (by decide)).trans rfl⟩

/-- C4 counterexample: for a variadic kind, the children sequence consisting
of exactly one absent entry is not attached unchanged: the single-inferred-
child test reads `isInferred` off the absent entry and the call faults
(modelled as `none`), so no node is returned at all. -/
theorem claim4_counterexample :
    arity ("mrow") = -1 ∧
    createNode ("mrow") [none] [] none = none := by
  refine ⟨by decide, ?_⟩
  unfold createNode
  rw [if_pos (show arity ("mrow") = -1 ∧ singleAbsent [none] = true from
    ⟨by decide, rfl⟩)]

/-- C4 as amended: for a variadic-arity kind, a single inferred child is
unwrapped one level (the node's children become the inferred child's own
children); any other supplied children sequence except the singleton absent
entry (on which `createNode` faults) is attached unchanged. -/
theorem claim4_variadic_unwrap (kind : String)
    (children : List (Option MNode)) (defs : PropertyList)
    (hv : arity kind = -1) :
    (∀ c : MNode, children = [some c] → c.isInferred = true →
      ∃ node, createNode kind children defs none = some node ∧
        node.childNodes = c.childNodes) ∧
    ((∀ c : MNode, children = [some c] → c.isInferred = false) →
      ¬ children = [none] →
      ∃ node, createNode kind children defs none = some node ∧
        node.childNodes = children) := by
  constructor
  · intro c hc hi
    subst hc
    have hng : ¬ (arity kind = -1 ∧ singleAbsent [some c] = true) := by
      rintro ⟨-, hx⟩
      rw [singleAbsent_some] at hx
      cases hx
    unfold createNode
    rw [if_neg hng]
    refine ⟨_, rfl, ?_⟩
    show (createNodeCore kind [some c] defs none).childNodes = c.childNodes
    unfold createNodeCore
    rw [childNodes_setProperties]
    show (attachChildren kind [some c]).childNodes = c.childNodes
    unfold attachChildren
    rw [if_pos hv]
    dsimp only
    rw [if_pos hi, childNodes_withChildren]
  · intro hni hnn
    have hsa : singleAbsent children = false := by
      cases children with
      | nil => rfl
      | cons o rest =>
        cases o with
        | none =>
          cases rest with
          | nil => exact absurd rfl hnn
          | cons o2 r2 => rfl
        | some c => cases rest with
          | nil => rfl
          | cons o2 r2 => rfl
    have hng : ¬ (arity kind = -1 ∧ singleAbsent children = true) := by
      rintro ⟨-, hx⟩
      rw [hsa] at hx
      cases hx
    unfold createNode
    rw [if_neg hng]
    refine ⟨_, rfl, ?_⟩
    show (createNodeCore kind children defs none).childNodes = children
    unfold createNodeCore
    rw [childNodes_setProperties]
    show (attachChildren kind children).childNodes = children
    unfold attachChildren
    rw [if_pos hv]
    cases children with
    | nil => rfl
    | cons o rest =>
      cases o with
      | none =>
        cases rest with
        | nil => exact absurd rfl hnn
        | cons o2 r2 => rfl
      | some c =>
        cases rest with
        | nil =>
          dsimp only
          rw [if_neg (by rw [hni c rfl]; exact Bool.false_ne_true),
            childNodes_withChildren]
        | cons o2 r2 => rfl

/-- Witness for C4: a variadic `mrow` given the single inferred child is
unwrapped to the inferred child's own two children; given two plain
children they are attached unchanged. -/
theorem claim4_variadic_unwrap_witness :
    arity ("mrow") = -1 ∧ sampleInferred.isInferred = true ∧
    Option.map MNode.childNodes
      (createNode ("mrow") [some sampleInferred] [] none) =
      some [some sampleBase, some sampleScript] ∧
    Option.map MNode.childNodes
      (createNode ("mrow") [some sampleBase, some sampleScript] [] none) =
      some [some sampleBase, some sampleScript] := by
  obtain ⟨node, h1, h2⟩ :=
    (claim4_variadic_unwrap ("mrow") [some sampleInferred] [] (by decide)).1
      sampleInferred rfl rfl
  obtain ⟨node2, h3, h4⟩ :=
    (claim4_variadic_unwrap ("mrow") [some sampleBase, some sampleScript] []
      (by decide)).2 (fun c hc => by simp at hc) (by intro hx; simp at hx)
  refine ⟨by decide, rfl, ?_, ?_⟩
  · rw [h1, Option.map_some', h2]
    rfl
  · rw [h3, Option.map_some', h4]

/-- C5: for a fixed-arity kind and a children sequence without absent
entries, every inferred child is replaced by its explicit `mrow` rewrap
(children taken from the inferred node, attributes and properties copied by
`copyAttributes`) and every non-inferred child passes through unchanged, in
position. -/
theorem claim5_fixed_rewraps_inferred (kind : String)
    (children : List (Option MNode)) (defs : PropertyList)
    (hfix : ¬ arity kind = -1) (hpres : ∀ x ∈ children, x.isNone = false) :
    ∃ node, createNode kind children defs none = some node ∧
      node.childNodes = children.map (Option.map fun c =>
        if c.isInferred = true then rewrapInferred c else c) ∧
      (∀ c : MNode, (rewrapInferred c).kind = "mrow" ∧
        (rewrapInferred c).childNodes = c.childNodes) := by
  refine ⟨_, createNode_not_variadic kind children defs none hfix, ?_, ?_⟩
  · rw [childNodes_createNodeCore_fixed kind children defs hfix,
      loop_map_of_pres children hpres]
  · intro c
    constructor
    · rw [rewrapInferred, kind_copyAttributes]
      rfl
    · rw [rewrapInferred, childNodes_copyAttributes]
      rfl

/-- Witness for C5: an `msub` given an inferred child and a plain child: the
inferred slot is rewrapped into an `mrow` holding the inferred node's two
children, the plain child passes through. -/
theorem claim5_fixed_rewraps_inferred_witness :
    Option.map MNode.childNodes
      (createNode ("msub") [some sampleInferred, some sampleBase] [] none) =
      some [some (rewrapInferred sampleInferred), some sampleBase] ∧
    (rewrapInferred sampleInferred).kind = "mrow" ∧
    (rewrapInferred sampleInferred).childNodes =
      [some sampleBase, some sampleScript] := by
  obtain ⟨node, h1, h2, h3⟩ :=
    claim5_fixed_rewraps_inferred ("msub") [some sampleInferred, some sampleBase]
      [] (by decide) (by decide)
  refine ⟨?_, (h3 sampleInferred).1, (h3 sampleInferred).2⟩
  rw [h1, Option.map_some', h2]
  rfl

/-- C7: `getForm` yields no match on a node that is not of kind `mo`, for
every dictionary; on an `mo` node it is the first-hit lookup of the node's
ordered candidate forms against the dictionary keyed by (form, literal
text): no candidate hit means no match, and the first form with an entry
wins. -/
theorem claim7_operator_form_resolution
    (optable : String → String → Option OperatorDef) (node : MNode) :
    (¬ node.kind = "mo" → getForm optable node = none) ∧
    (node.kind = "mo" →
      getForm optable node =
        node.forms.findSome? (fun fm => optable fm node.text) ∧
      ((∀ fm ∈ node.forms, optable fm node.text = none) →
        getForm optable node = none) ∧
      (∀ (l1 l2 : List String) (fm : String) (d : OperatorDef),
        node.forms = l1 ++ fm :: l2 →
        (∀ g ∈ l1, optable g node.text = none) →
        optable fm node.text = some d →
        getForm optable node = some d)) := by
  constructor
  · intro h
    unfold getForm
    rw [if_pos h]
  · intro h
    have hne : ¬ ¬ node.kind = "mo" := fun hx => hx h
    refine ⟨?_, ?_, ?_⟩
    · unfold getForm
      rw [if_neg hne]
      exact lookupForms_eq_findSome optable node.text node.forms
    · intro hall
      unfold getForm
      rw [if_neg hne, lookupForms_eq_findSome]
      exact List.findSome?_eq_none_iff.mpr hall
    · intro l1 l2 fm d hforms hnone hhit
      unfold getForm
      rw [if_neg hne, lookupForms_eq_findSome, hforms]
      exact findSome_first_hit optable node.text l1 l2 fm d hnone hhit

/-- Witness for C7: the `+` operator node with candidate forms
`infix, prefix` resolves to the dictionary's `infix` entry (the first hit);
a non-`mo` node resolves to no match. -/
theorem claim7_operator_form_resolution_witness :
    getForm sampleTable sampleMo = some ⟨1⟩ ∧
    getForm sampleTable sampleBase = none := by
  have h := (claim7_operator_form_resolution sampleTable sampleMo).2 rfl
  have h2 := (claim7_operator_form_resolution sampleTable sampleBase).1
    (by decide)
  refine ⟨?_, h2⟩
  rw [h.1]
  rfl

/-- C8 counterexample: `createNode` never checks a fixed arity against the
number of supplied children: three children supplied to the arity-2 kind
`msub` are all attached, so the arity bound of the claim is violated. -/
theorem claim8_counterexample :
    arity ("msub") = 2 ∧
    Option.map (fun nd => nd.childNodes.length)
      (createNode ("msub") [some sampleBase, some sampleBase, some sampleBase]
        [] none) = some 3 := by
  refine ⟨by decide, ?_⟩
  rw [createNode_not_variadic _ _ _ _ (by decide), Option.map_some']
  rw [childNodes_createNodeCore_fixed _ _ _ (by decide)]
  rfl

/-- C8 as amended: for a fixed-arity kind the returned node's children count
is bounded by the number of supplied children, plus one when a trailing text
leaf is appended; the declared arity itself is not enforced. -/
theorem claim8_children_bound (kind : String) (children : List (Option MNode))
    (defs : PropertyList) (tx : Option MNode) (hfix : ¬ arity kind = -1) :
    ∃ node, createNode kind children defs tx = some node ∧
      node.childNodes.length ≤ children.length +
        (if tx.isSome = true then 1 else 0) := by
  refine ⟨_, createNode_not_variadic kind children defs tx hfix, ?_⟩
  show (createNodeCore kind children defs tx).childNodes.length ≤ _
  unfold createNodeCore
  rw [childNodes_setProperties]
  cases tx with
  | none =>
    show (attachChildren kind children).childNodes.length ≤ _
    rw [childNodes_attach_fixed _ _ hfix, List.length_map]
    simpa using loop_length_le children
  | some t =>
    show ((attachChildren kind children).withChildren
      ((attachChildren kind children).childNodes ++ [some t])).childNodes.length ≤ _
    rw [childNodes_withChildren, List.length_append,
      childNodes_attach_fixed _ _ hfix, List.length_map]
    simpa using Nat.add_le_add_right (loop_length_le children) 1

/-- Witness for C8 as amended: an `msub` given one child and a trailing text
leaf has at most two children. -/
theorem claim8_children_bound_witness :
    ¬ arity ("msub") = -1 ∧
    ∃ node, createNode ("msub") [some sampleBase] []
        (some (leafNode ("text"))) = some node ∧
      node.childNodes.length ≤ [some sampleBase].length +
        (if (some (leafNode ("text"))).isSome = true then 1 else 0) :=
  ⟨by decide, claim8_children_bound ("msub") [some sampleBase] []
    (some (leafNode ("text"))) (by decide)⟩

/-- C10: for a fixed-arity kind, the children after the first absent entry
are silently dropped: `createNode` on `pre ++ [absent] ++ post` (with `pre`
hole-free) equals `createNode` on `pre` alone, and all of `pre` is
attached. -/
theorem claim10_absent_truncates (kind : String)
    (pre post : List (Option MNode)) (defs : PropertyList)
    (hfix : ¬ arity kind = -1) (hpre : ∀ x ∈ pre, x.isNone = false) :
    createNode kind (pre ++ none :: post) defs none =
      createNode kind pre defs none ∧
    ∃ node, createNode kind pre defs none = some node ∧
      node.childNodes.length = pre.length := by
  constructor
  · rw [createNode_not_variadic _ _ _ _ hfix,
      createNode_not_variadic _ _ _ _ hfix]
    congr 1
    unfold createNodeCore
    congr 1
    show attachChildren kind (pre ++ none :: post) = attachChildren kind pre
    unfold attachChildren
    rw [if_neg hfix, if_neg hfix, loop_append_none pre post hpre]
  · refine ⟨_, createNode_not_variadic _ _ _ _ hfix, ?_⟩
    rw [childNodes_createNodeCore_fixed _ _ _ hfix, List.length_map]
    exact loop_length_pres pre hpre

/-- Witness for C10: an `msub` given (base, absent, script) equals the
`msub` given base alone, and the child after the hole is gone. -/
theorem claim10_absent_truncates_witness :
    ¬ arity ("msub") = -1 ∧
    createNode ("msub") [some sampleBase, none, some sampleScript] [] none =
      createNode ("msub") [some sampleBase] [] none ∧
    Option.map MNode.childNodes
      (createNode ("msub") [some sampleBase] [] none) =
      some [some sampleBase] := by
  have h := claim10_absent_truncates ("msub") [some sampleBase]
    [some sampleScript] [] (by decide) (by decide)
  exact ⟨by decide, h.1, rfl⟩

end Claims

end TreeHelper
